import Mathlib

/-!
Verification development for the `codemap` dependency-flow renderer
(`src/renderer/depgraph.py`).

Python strings are embedded as `List Char` (`Str`).  Python's `str.lower`
is modelled for the ASCII range (the renderer's own constants and the
properties under study involve ASCII data only).  Regular expressions in
the source are anchored suffix patterns; each one is embedded by a
dedicated function whose doc comment states the pattern it implements.
-/

namespace Depgraph

/-- Python strings, embedded as lists of characters. -/
abbrev Str := List Char

/-- The double-quote character. -/
def dquoteChar : Char := Char.ofNat 34

/-- The single-quote character. -/
def squoteChar : Char := Char.ofNat 39

/-- The two quote characters stripped by `imp.strip('"\x27')`. -/
def quoteChars : Str := [dquoteChar, squoteChar]

/-- Python `s.strip(cs)`: remove all leading and trailing characters
belonging to `cs`. -/
def pyStrip (cs : Str) (s : Str) : Str :=
  ((s.dropWhile (fun c => cs.contains c)).reverse.dropWhile
    (fun c => cs.contains c)).reverse

/-- The suffix of `s` after the last occurrence of `c` (the whole string
when `c` does not occur): Python `s.split(c)[-1]` for a one-character
separator, and `os.path.basename` when `c = '/'`. -/
def afterLast (c : Char) (s : Str) : Str :=
  (s.reverse.takeWhile (fun x => x ≠ c)).reverse

/-- `os.path.basename` (POSIX): everything after the last `'/'`. -/
def basename (p : Str) : Str := afterLast '/' p

/-- ASCII upper/lower case pairs, used to embed Python `str.lower()` on
the ASCII range. -/
def lowerPairs : List (Char × Char) :=
  [('A', 'a'), ('B', 'b'), ('C', 'c'), ('D', 'd'), ('E', 'e'), ('F', 'f'),
   ('G', 'g'), ('H', 'h'), ('I', 'i'), ('J', 'j'), ('K', 'k'), ('L', 'l'),
   ('M', 'm'), ('N', 'n'), ('O', 'o'), ('P', 'p'), ('Q', 'q'), ('R', 'r'),
   ('S', 's'), ('T', 't'), ('U', 'u'), ('V', 'v'), ('W', 'w'), ('X', 'x'),
   ('Y', 'y'), ('Z', 'z')]

/-- Python `str.lower()` on one character (ASCII). -/
def pyLower (c : Char) : Char := (List.lookup c lowerPairs).getD c

/-- Python `str.lower()` (ASCII). -/
def lowerStr (s : Str) : Str := s.map pyLower

/-- Decimal rendering of a count, as interpolated by the f-strings. -/
def natStr (n : Nat) : Str := (Nat.repr n).data

/-- The file extensions enumerated in the regex of `normalize_import`
(line 37): `\.(py|go|js|ts|jsx|tsx|rb|rs|c|h|cpp|hpp|java|swift)$`. -/
def EXTS : List Str :=
  [r"py".data, r"go".data, r"js".data, r"ts".data, r"jsx".data, r"tsx".data,
   r"rb".data, r"rs".data, r"c".data, r"h".data, r"cpp".data, r"hpp".data,
   r"java".data, r"swift".data]

/-- Embedding of `re.sub(r'\.(py|...|swift)$', '', s)`: remove a trailing
`.ext` for `ext` in `EXTS`.  At most one alternative can match as a
suffix (no extension contains a dot, so no `.ext₁` is a proper suffix of
another `.ext₂`), hence picking the first matching list entry agrees with
the regex engine's earliest-position match. -/
def stripKnownExt (s : Str) : Str :=
  match EXTS.find? (fun e => ('.' :: e).isSuffixOf s) with
  | some e => s.take (s.length - (e.length + 1))
  | none => s

/-- Embedding of `re.sub(r'\.[^.]+$', '', s)`: if the last `'.'` of `s`
has at least one character after it, remove everything from that dot to
the end; otherwise (no dot, or the string ends in a dot) leave `s`
unchanged. -/
def stripLastExt (s : Str) : Str :=
  let r := s.reverse
  let pre := r.takeWhile (fun x => x ≠ '.')
  if pre.length < r.length ∧ pre ≠ [] then (r.drop (pre.length + 1)).reverse
  else s

/-- `normalize_import` (depgraph.py lines 31-38).  The `lang` parameter is
accepted and unused, exactly as in the source. -/
def normalize_import (imp : Str) (_lang : Str) : Str :=
  let s1 := pyStrip quoteChars imp
  let s2 := if s1.contains '/' then afterLast '/' s1 else s1
  let s3 := if s2.contains '.' ∧ s2.head? ≠ some '.' then afterLast '.' s2 else s2
  let s4 := stripKnownExt s3
  lowerStr s4

/-- One input file record (spec section 3): path, language tag, declared
imports and declared functions.  Missing optional fields are embedded as
empty lists, matching the renderer's `f.get(..., [])` defaults. -/
structure FileRecord where
  path : Str
  language : Str
  imports : List Str
  functions : List Str
deriving DecidableEq, Repr

/-- `LANG_GROUPS` (depgraph.py lines 11-28). -/
def LANG_GROUPS : List (Str × Str) :=
  [(r"python".data, r"python".data), (r"go".data, r"go".data),
   (r"javascript".data, r"js".data), (r"typescript".data, r"js".data),
   (r"rust".data, r"rust".data), (r"ruby".data, r"ruby".data),
   (r"c".data, r"c".data), (r"cpp".data, r"c".data),
   (r"java".data, r"java".data), (r"swift".data, r"swift".data),
   (r"bash".data, r"bash".data), (r"kotlin".data, r"kotlin".data),
   (r"c_sharp".data, r"c_sharp".data), (r"php".data, r"php".data),
   (r"dart".data, r"dart".data), (r"r".data, r"r".data)]

/-- `LANG_GROUPS.get(lang, lang)`: unmapped languages map to themselves. -/
def langGroup (lang : Str) : Str := (List.lookup lang LANG_GROUPS).getD lang

/-- The `stdlib_names` set of `find_internal_deps` (lines 44-54).  The
Python set literal lists `"path"` and `"http"` twice; a list with
membership testing has the same semantics. -/
def stdlibNames : List Str :=
  [r"errors".data, r"fmt".data, r"io".data, r"os".data, r"path".data,
   r"sync".data, r"time".data, r"context".data, r"http".data,
   r"net".data, r"bytes".data, r"strings".data, r"strconv".data,
   r"sort".data, r"flag".data, r"log".data, r"bufio".data,
   r"encoding".data, r"testing".data, r"runtime".data, r"unsafe".data,
   r"reflect".data, r"regexp".data,
   r"logging".data, r"typing".data, r"collections".data, r"datetime".data,
   r"json".data, r"sys".data, r"re".data,
   r"pathlib".data, r"hashlib".data, r"base64".data, r"asyncio".data,
   r"enum".data, r"functools".data, r"random".data,
   r"fs".data, r"util".data, r"events".data, r"stream".data,
   r"crypto".data, r"https".data]

/-- The reverse-index key of a file (lines 63-64):
`re.sub(r'\.[^.]+$', '', os.path.basename(path)).lower()`. -/
def fileKey (f : FileRecord) : Str := lowerStr (stripLastExt (basename f.path))

/-- The `name_to_infos` reverse index (lines 58-65), read at one key:
the `(path, language_group)` pairs of the files whose key is `name`, in
input order.  (`norm in name_to_infos` in the source is equivalent to
this list being nonempty, and iterating an absent key to iterating the
empty list.) -/
def nameToInfos (files : List FileRecord) (name : Str) : List (Str × Str) :=
  files.filterMap (fun g =>
    if fileKey g = name then some (g.path, langGroup g.language) else none)

/-- The dependency map: file path to ordered list of target basenames,
embedded as an insertion-ordered association list (Python dict). -/
abbrev DepsMap := List (Str × List Str)

/-- Dict lookup with default `[]` (`internal_deps.get(path, [])`, and the
read side of `defaultdict(list)`). -/
def alistGetD (m : DepsMap) (k : Str) : List Str :=
  match m with
  | [] => []
  | (k', vs) :: rest => if k' = k then vs else alistGetD rest k

/-- `if target_name not in deps[path]: deps[path].append(target_name)` on
a `defaultdict(list)`: append `v` to the list at `k` when absent, adding
the key at the end of the dict when new. -/
def depsAdd : DepsMap → Str → Str → DepsMap
  | [], k, v => [(k, [v])]
  | (k', vs) :: rest, k, v =>
      if k' = k then (k', if v ∈ vs then vs else vs ++ [v]) :: rest
      else (k', vs) :: depsAdd rest k v

/-- The candidate loop body of `find_internal_deps` (lines 86-96): skip
self, skip cross-language-group, skip same-basename targets, otherwise
record the target basename. -/
def processCandidate (srcPath srcGroup srcBase : Str) (deps : DepsMap)
    (cand : Str × Str) : DepsMap :=
  if cand.1 = srcPath then deps
  else if srcGroup ≠ cand.2 then deps
  else if basename cand.1 = srcBase then deps
  else depsAdd deps srcPath (basename cand.1)

/-- The import loop body of `find_internal_deps` (lines 73-96): the two
stdlib skips, then the candidate loop over the reverse index. -/
def processImport (files : List FileRecord) (f : FileRecord)
    (deps : DepsMap) (imp : Str) : DepsMap :=
  if ¬ imp.contains '/' ∧ ¬ imp.contains '.' ∧ stdlibNames.contains (lowerStr imp)
  then deps
  else
    let norm := normalize_import imp f.language
    if stdlibNames.contains norm then deps
    else
      (nameToInfos files norm).foldl
        (processCandidate f.path (langGroup f.language) (basename f.path)) deps

/-- `find_internal_deps` (depgraph.py lines 41-98). -/
def find_internal_deps (files : List FileRecord) : DepsMap :=
  files.foldl (fun deps f => f.imports.foldl (processImport files f) deps) []

/-- The larger `stdlib` set of `get_external_uses` (lines 105-116). -/
def stdlibBig : List Str :=
  [r"os".data, r"re".data, r"sys".data, r"json".data, r"math".data,
   r"time".data, r"collections".data, r"defaultdict".data,
   r"typing".data, r"pathlib".data, r"datetime".data, r"hashlib".data,
   r"base64".data, r"asyncio".data, r"enum".data,
   r"logging".data, r"contextlib".data, r"functools".data,
   r"itertools".data, r"copy".data, r"random".data,
   r"fmt".data, r"io".data, r"flag".data, r"path".data, r"strings".data,
   r"embed".data, r"runtime".data, r"unsafe".data,
   r"filepath".data, r"context".data, r"sync".data, r"http".data,
   r"net".data, r"bytes".data, r"errors".data,
   r"strconv".data, r"sort".data, r"testing".data, r"log".data,
   r"bufio".data, r"encoding".data,
   r"react".data, r"fs".data, r"util".data, r"events".data,
   r"stream".data, r"crypto".data]

/-- `get_external_uses` (lines 101-125): normalized imports that are
neither internal nor stdlib and have length above 1, first occurrence
order, deduplicated. -/
def get_external_uses (f : FileRecord) (internalNames : List Str) : List Str :=
  (f.imports.foldl (fun acc imp =>
    let norm := normalize_import imp f.language
    if ¬ internalNames.contains norm ∧ ¬ stdlibBig.contains norm ∧ 1 < norm.length
    then
      if acc.1.contains norm then acc
      else (acc.1 ++ [norm], acc.2 ++ [norm])
    else acc) (([] : List Str), ([] : List Str))).2

/-- `truncate_with_ellipsis` (lines 128-132).  Python's `text[:max_len-2]`
slices from the end when `max_len < 2` (a negative slice index); that
branch is embedded faithfully although the renderer only calls this with
`max_len = 30`. -/
def truncate_with_ellipsis (text : Str) (maxLen : Nat) : Str :=
  if text.length ≤ maxLen then text
  else
    (if 2 ≤ maxLen then text.take (maxLen - 2)
     else text.take (text.length - (2 - maxLen))) ++ r"..".data

/-- The `uses:` block of `create_box_lines` (lines 151-164): a blank
line, then the external names greedily wrapped to `inner` columns with
six-space continuation indents; the trailing buffer is emitted when it
contains a non-whitespace character (`current_line.strip()`). -/
def usesSection (external : List Str) (inner : Nat) : List Str :=
  if external.isEmpty then []
  else
    let st := external.enum.foldl (fun acc id =>
      let addition := if id.1 = 0 then id.2 else r", ".data ++ id.2
      if acc.1.length + addition.length ≤ inner then (acc.1 ++ addition, acc.2)
      else (r"      ".data ++ id.2, acc.2 ++ [acc.1]))
      ((r"uses: ".data : Str), ([] : List Str))
    ([] : Str) :: (if st.1.any (fun c => ¬ c.isWhitespace) then st.2 ++ [st.1] else st.2)

/-- `create_box_lines` (lines 135-166). -/
def create_box_lines (path : Str) (functions : List Str) (external : List Str)
    (width : Nat) : List Str :=
  let inner := width - 4
  truncate_with_ellipsis (basename path) inner
    :: List.replicate inner '─'
    :: ((functions.take 6).map (fun fn => r"ƒ ".data ++ fn ++ r"()".data)
        ++ (if 6 < functions.length
            then [r"  +".data ++ natStr (functions.length - 6) ++ r" more".data]
            else [])
        ++ usesSection external inner)

/-- Python `s.ljust(w)`: pad with spaces on the right, never truncate. -/
def pyLjust (s : Str) (w : Nat) : Str := s ++ List.replicate (w - s.length) ' '

/-- `draw_box` (lines 169-179). -/
def draw_box (lines : List Str) (width : Nat) : List Str :=
  ('┌' :: List.replicate (width - 2) '─' ++ ['┐'])
    :: lines.map (fun l => '│' :: ' ' :: pyLjust (l.take (width - 4)) (width - 4) ++ [' ', '│'])
    ++ [('└' :: List.replicate (width - 2) '─' ++ ['┘'])]

/-- Python `s.split(c)` for a one-character separator: always returns at
least one (possibly empty) segment. -/
def pySplit (c : Char) : Str → List Str
  | [] => [[]]
  | x :: xs =>
      if x = c then [] :: pySplit c xs
      else
        match pySplit c xs with
        | h :: t => (x :: h) :: t
        | [] => [[x]]

/-- ASCII lower/upper case pairs reversed, for Python `str.upper()`. -/
def upperPairs : List (Char × Char) := lowerPairs.map (fun p => (p.2, p.1))

/-- Python `str.upper()` on one character (ASCII). -/
def pyUpper (c : Char) : Char := (List.lookup c upperPairs).getD c

/-- ASCII letter test (the cased characters for the ASCII embedding of
`str.title()`). -/
def isAsciiAlpha (c : Char) : Bool :=
  (decide ('a' ≤ c) && decide (c ≤ 'z')) || (decide ('A' ≤ c) && decide (c ≤ 'Z'))

/-- Helper for `pyTitle`: the flag records whether the previous character
was a letter. -/
def pyTitleGo : Bool → Str → Str
  | _, [] => []
  | prevAlpha, c :: rest =>
      (if isAsciiAlpha c then (if prevAlpha then pyLower c else pyUpper c) else c)
        :: pyTitleGo (isAsciiAlpha c) rest

/-- Python `str.title()` (ASCII): uppercase a letter that follows a
non-letter, lowercase the other letters. -/
def pyTitle (s : Str) : Str := pyTitleGo false s

/-- The skip-set of `get_system_name` (line 186). -/
def skipNames : List Str :=
  [r"src".data, r"lib".data, r"app".data, r"internal".data, r"pkg".data,
   r".".data, ([] : Str)]

/-- Backslashes normalized to forward slashes (`path.replace("\\", "/")`). -/
def slashNorm (s : Str) : Str := s.map (fun c => if c = '\\' then '/' else c)

/-- `get_system_name` (lines 182-190).  `pySplit` never returns `[]`, so
the final `"Root"` fallback is unreachable, as in the source. -/
def get_system_name (dirPath : Str) : Str :=
  let parts := pySplit '/' (slashNorm dirPath)
  let meaningful := parts.filter (fun p => ¬ skipNames.contains (lowerStr p))
  match meaningful with
  | m :: _ => ((pyTitle m).map (fun c => if c = '_' then ' ' else c)).map
      (fun c => if c = '-' then ' ' else c)
  | [] =>
      match parts with
      | [] => r"Root".data
      | _ => pyTitle (parts.getLastD [])

/-- Append a record to its system's group, inserting the key at the end
of the dict when new (`defaultdict(list)` keyed by top-level segment). -/
def groupAdd : List (Str × List FileRecord) → Str → FileRecord →
    List (Str × List FileRecord)
  | [], k, f => [(k, [f])]
  | (k', fs) :: rest, k, f =>
      if k' = k then (k', fs ++ [f]) :: rest
      else (k', fs) :: groupAdd rest k f

/-- The system grouping of `render` (lines 233-238): key is the first
path segment when the path has a directory component, else `"."`. -/
def systemsOf (files : List FileRecord) : List (Str × List FileRecord) :=
  files.foldl (fun acc f =>
    let parts := pySplit '/' (slashNorm f.path)
    let sysKey := if 1 < parts.length then parts.headD [] else r".".data
    groupAdd acc sysKey f) []

/-- Lexicographic strict order on strings by code point (Python `<`). -/
def strLtB : Str → Str → Bool
  | [], [] => false
  | [], _ :: _ => true
  | _ :: _, [] => false
  | a :: as, b :: bs => if a = b then strLtB as bs else decide (a < b)

/-- Non-strict string order, for `sorted(systems.keys())`. -/
def strLeB (a b : Str) : Bool := strLtB a b || a == b

/-- Association-list lookup (first match), for dicts read with `[]`. -/
def alistFind {β : Type} (m : List (Str × β)) (k : Str) : Option β :=
  (m.find? (fun p => p.1 == k)).map (fun p => p.2)

/-- First file whose basename equals `t` (lines 348-352 and 363-367). -/
def findTargetPath (files : List FileRecord) (t : Str) : Option Str :=
  (files.find? (fun ff => basename ff.path == t)).map (fun ff => ff.path)

/-- The per-file chain rendering of `render` (lines 358-386), producing
the printed lines for a file with a nonempty target list: a single
target extends the chain through the target's own targets (up to 3,
with a `+n` overflow marker); 2-4 targets are comma-joined on one arrow
line; more than 4 targets branch into `├──▶`/`└──▶` rows.  Lines
345-356 of the source compute `has_subdeps`/`no_subdeps`, which are
never read afterwards; being pure, they are omitted. -/
def renderChainLines (files : List FileRecord) (deps : DepsMap)
    (nameNoExt : Str) (targets : List Str) : List Str :=
  if targets.length = 1 then
    let t := targets.headD []
    let tName := stripLastExt t
    let tPath := findTargetPath files t
    let subTargets :=
      match tPath with
      | some p => if p = [] then [] else alistGetD deps p
      | none => []
    if ¬ subTargets.isEmpty then
      let subNames := (subTargets.take 3).map stripLastExt
      let chain := nameNoExt ++ r" ───▶ ".data ++ tName ++ r" ───▶ ".data
        ++ List.intercalate (r", ").data subNames
      let chain := if 3 < subTargets.length
        then chain ++ r" +".data ++ natStr (subTargets.length - 3)
        else chain
      [r"  ".data ++ chain]
    else [r"  ".data ++ nameNoExt ++ r" ───▶ ".data ++ tName]
  else if targets.length ≤ 4 then
    [r"  ".data ++ nameNoExt ++ r" ───▶ ".data
      ++ List.intercalate (r", ").data (targets.map stripLastExt)]
  else
    let targetStrs := targets.map stripLastExt
    (r"  ".data ++ nameNoExt ++ r" ──┬──▶ ".data ++ targetStrs.headD [])
      :: (targetStrs.drop 1).dropLast.map (fun t =>
            r"  ".data ++ List.replicate nameNoExt.length ' '
              ++ r"   ├──▶ ".data ++ t)
      ++ [r"  ".data ++ List.replicate nameNoExt.length ' '
            ++ r"   └──▶ ".data ++ targetStrs.getLastD []]

/-- Add a basename to the `rendered` set (Python `set.add`; insertion
order is irrelevant, only membership is read). -/
def addRendered (rendered : List Str) (b : Str) : List Str :=
  if b ∈ rendered then rendered else rendered ++ [b]

/-- The per-system file loop of `render` (lines 328-388): returns the
final `rendered` set together with the printed chain lines. -/
def systemBody (files : List FileRecord) (deps : DepsMap)
    (sysFiles : List FileRecord) : List Str × List Str :=
  sysFiles.foldl (fun acc f =>
    let bn := basename f.path
    let nameNoExt := stripLastExt bn
    if bn ∈ acc.1 then acc
    else
      let targets := alistGetD deps f.path
      if targets.isEmpty then acc
      else (addRendered acc.1 bn, acc.2 ++ renderChainLines files deps nameNoExt targets))
    (([] : List Str), ([] : List Str))

/-- One system section of `render` (lines 311-402): skipped entirely
when no file of the system has a dependency edge or a declared function;
otherwise the `═` header, the chain lines, an optional standalone-file
count and a closing blank line. -/
def systemSection (files : List FileRecord) (deps : DepsMap)
    (systems : List (Str × List FileRecord)) (sysKey : Str) : List Str :=
  let sysFiles := (alistFind systems sysKey).getD []
  let hasContent := sysFiles.any (fun f =>
    ¬ (alistGetD deps f.path).isEmpty || ¬ f.functions.isEmpty)
  if ¬ hasContent then []
  else
    let sysName := get_system_name sysKey
    let st := systemBody files deps sysFiles
    let standalone := sysFiles.countP (fun f =>
      ¬ st.1.contains (basename f.path) && ¬ f.functions.isEmpty)
    (sysName ++ [' '] ++ List.replicate (60 - sysName.length - 1) '═')
      :: st.2
      ++ (if 0 < standalone
          then [r"  +".data ++ natStr standalone ++ r" standalone files".data]
          else [])
      ++ [([] : Str)]

/-- `dep_counts[target] += 1` on a `defaultdict(int)`: bump the count,
inserting the key at the end of the dict when new. -/
def countsAdd : List (Str × Nat) → Str → List (Str × Nat)
  | [], k => [(k, 1)]
  | (k', n) :: rest, k =>
      if k' = k then (k', n + 1) :: rest
      else (k', n) :: countsAdd rest k

/-- The incoming-dependency counts of `render` (lines 227-230), in first
occurrence order over `internal_deps.items()`. -/
def depCounts (deps : DepsMap) : List (Str × Nat) :=
  deps.foldl (fun acc kv => kv.2.foldl countsAdd acc) []

/-- The comparison of `sorted(dep_counts.items(), key=lambda x: -x[1])`:
ascending in `-count`, i.e. descending in count; `mergeSort` is stable,
matching Python's stable sort. -/
def hubLe (a b : Str × Nat) : Bool := decide (b.2 ≤ a.2)

/-- The hub list (lines 406-407): top 6 by count descending, then only
entries with count at least 2. -/
def hubsFrom (counts : List (Str × Nat)) : List (Str × Nat) :=
  ((counts.mergeSort hubLe).take 6).filter (fun p => decide (2 ≤ p.2))

/-- Embedding of `re.sub(r'.[^.]+$', '', name)` (line 410).  The leading
dot of the pattern is unescaped, so it matches any character: when the
name contains a dot the earliest match still starts at the last dot
(provided characters follow it), but on a dot-free name of length at
least 2 the match starts at index 0 and removes the whole name. -/
def hubShorten (s : Str) : Str :=
  if s.contains '.' then stripLastExt s
  else if 2 ≤ s.length then []
  else s

/-- One `name (count←)` hub entry (line 410). -/
def hubEntryStr (p : Str × Nat) : Str :=
  hubShorten p.1 ++ r" (".data ++ natStr p.2 ++ r"←)".data

/-- The HUBS block of `render` (lines 404-411): nothing when there are
no counts or no qualifying hubs, otherwise a horizontal rule and the
`HUBS:` line. -/
def hubSection (counts : List (Str × Nat)) : List Str :=
  if counts.isEmpty then []
  else
    let hubs := hubsFrom counts
    if hubs.isEmpty then []
    else
      [List.replicate 61 '─',
       r"HUBS: ".data ++ List.intercalate (r", ").data (hubs.map hubEntryStr)]

/-- `v`-followed-by-digits test: `re.match(r'^v\d+$', name)`. -/
def isVersionSeg (s : Str) : Bool :=
  match s with
  | 'v' :: rest => ¬ rest.isEmpty && rest.all (fun c => c.isDigit)
  | _ => false

/-- The per-dependency display name (lines 251-254): last path segment,
or the segment before it when the last one looks like a version tag. -/
def verName (d : Str) : Str :=
  let parts := pySplit '/' d
  let name := parts.getLastD []
  if isVersionSeg name ∧ 1 < parts.length then parts.dropLast.getLastD []
  else name

/-- The deduplicated external names of one language (lines 248-258). -/
def extNames (ds : List Str) : List Str :=
  (ds.foldl (fun acc d =>
    let name := verName d
    if ¬ isVersionSeg name ∧ 1 < name.length ∧ ¬ acc.1.contains name
    then (acc.1 ++ [name], acc.2 ++ [name])
    else acc) (([] : List Str), ([] : List Str))).2

/-- `ext_by_lang` (lines 244-259).  The input mapping is a Python dict,
so its keys are distinct. -/
def extByLang (extDeps : List (Str × List Str)) : List (Str × List Str) :=
  extDeps.foldl (fun acc lv =>
    if lv.2.isEmpty then acc
    else
      let names := extNames lv.2
      if names.isEmpty then acc else acc ++ [(lv.1, names)]) []

/-- The fixed language iteration order of the header (line 272). -/
def langOrder : List Str :=
  [r"go".data, r"javascript".data, r"python".data, r"swift".data,
   r"rust".data, r"ruby".data, r"bash".data, r"kotlin".data,
   r"c_sharp".data, r"php".data, r"dart".data, r"r".data]

/-- `lang_labels` (lines 267-271). -/
def langLabels : List (Str × Str) :=
  [(r"go".data, r"Go".data), (r"javascript".data, r"JS".data),
   (r"python".data, r"Py".data), (r"rust".data, r"Rs".data),
   (r"ruby".data, r"Rb".data), (r"swift".data, r"Swift".data),
   (r"bash".data, r"Sh".data), (r"kotlin".data, r"Kt".data),
   (r"c_sharp".data, r"C#".data), (r"php".data, r"PHP".data),
   (r"dart".data, r"Dart".data), (r"r".data, r"R".data)]

/-- The header dep lines and running width (lines 262-279): one
`Label: a, b, c` line per language present, and the final `max_width`
before the 80 cap. -/
def headerInfo (extBy : List (Str × List Str)) (title : Str) :
    List Str × Nat :=
  langOrder.foldl (fun acc lang =>
    match alistFind extBy lang with
    | none => acc
    | some names =>
        let label := (alistFind langLabels lang).getD (pyTitle lang)
        let line := label ++ r": ".data ++ List.intercalate (r", ").data names
        (acc.1 ++ [line],
         if acc.2 < line.length + 4 then line.length + 4 else acc.2))
    (([] : List Str), title.length + 6)

/-- Python `s[:w].rfind(pat)` ingredient: the last index of `s` at which
`pat` starts, if any. -/
def rfindSub (pat s : Str) : Option Nat :=
  ((List.range s.length).filter (fun i => pat.isPrefixOf (s.drop i))).getLast?

/-- The header line-wrapping loop (lines 295-305): break at the last
`", "` inside the window (keeping the comma), or at `content_width - 1`
when there is none, and continue with a four-space indent after
stripping leading spaces.  The loop terminates on every input (a growth
step is bounded by +3 and forces the next line to start with four
spaces, after which every step strictly shrinks the line), so the fuel
`2 * line.length + 16` is never exhausted; on exhaustion the remaining
line would be emitted unchanged. -/
def wrapDepLine : Nat → Nat → Str → List Str
  | 0, _, line => [line]
  | fuel + 1, cw, line =>
      if cw < line.length then
        let breakAt :=
          match rfindSub (r", ").data (line.take cw) with
          | some i => i + 1
          | none => cw - 1
        line.take breakAt ::
          wrapDepLine fuel cw
            (r"    ".data ++ (line.drop breakAt).dropWhile (fun c => c = ' '))
      else [line]

/-- Python `s.center(w)`; CPython puts the extra space on the left
exactly when `marg & width & 1` is set. -/
def pyCenter (s : Str) (w : Nat) : Str :=
  if w ≤ s.length then s
  else
    let marg := w - s.length
    let left := marg / 2 + (marg % 2) * (w % 2)
    List.replicate left ' ' ++ s ++ List.replicate (marg - left) ' '

/-- One wrapped header content row: `│ {x:<cw} │`. -/
def fmtHeaderRow (cw : Nat) (x : Str) : Str :=
  '│' :: ' ' :: pyLjust x cw ++ [' ', '│']

/-- The header panel of `render` (lines 241-307): the rounded box with
the centred title and the per-language external dependency lines. -/
def headerBoxLines (extDeps : List (Str × List Str)) (projectName : Str) :
    List Str :=
  let title := projectName ++ r" - Dependency Flow".data
  let info := headerInfo (extByLang extDeps) title
  let maxWidth := min info.2 80
  let innerW := maxWidth - 2
  let contentW := innerW - 2
  ('╭' :: List.replicate innerW '─' ++ ['╮'])
    :: ('│' :: pyCenter title innerW ++ ['│'])
    :: ((if info.1.isEmpty then []
         else ('├' :: List.replicate innerW '─' ++ ['┤'])
           :: (info.1.map (fun l =>
                 (wrapDepLine (2 * l.length + 16) contentW l).map
                   (fmtHeaderRow contentW))).flatten)
        ++ [('╰' :: List.replicate innerW '─' ++ ['╯'])])

/-- The `data` argument of `render` (spec section 6): the file list and
the per-language external dependency mapping. -/
structure RenderData where
  files : List FileRecord
  external_deps : List (Str × List Str)
deriving DecidableEq

/-- `render` (depgraph.py lines 208-417), as the list of printed lines
(each `print(x)` contributes the line `x`; a bare `print()` contributes
an empty line).  Lines 218-222 compute `internal_names`, which the
function never reads afterwards; being pure, the binding is omitted. -/
def render (data : RenderData) (projectName : Str) : List Str :=
  if data.files.isEmpty then [r"  No source files found.".data]
  else
    let files := data.files
    let deps := find_internal_deps files
    let counts := depCounts deps
    let systems := systemsOf files
    let keys := (systems.map (fun p => p.1)).mergeSort strLeB
    let totalFuncs := (files.map (fun f => f.functions.length)).sum
    let depEdges := (deps.map (fun p => p.2.length)).sum
    ([] : Str)
      :: headerBoxLines data.external_deps projectName
      ++ [([] : Str)]
      ++ (keys.map (systemSection files deps systems)).flatten
      ++ hubSection counts
      ++ [natStr files.length ++ r" files · ".data ++ natStr totalFuncs
            ++ r" functions · ".data ++ natStr depEdges ++ r" deps".data]
      ++ [([] : Str)]

/-- Quote-character test, written out for the spec-side normalizer. -/
def isQuoteChar (c : Char) : Bool := c == dquoteChar || c == squoteChar

/-- Spec 4.1 step 1: strip surrounding single/double quote characters
(all of them, on both ends). -/
def stripQuotesSpec (s : Str) : Str :=
  ((s.dropWhile isQuoteChar).reverse.dropWhile isQuoteChar).reverse

/-- Spec 4.1 steps 2-3: keep only the final `c`-separated segment. -/
def lastSegSpec (c : Char) (s : Str) : Str := (pySplit c s).getLastD []

/-- Spec 4.1 step 4, iterating the enumerated extension set: strip one
trailing `.ext` if present. -/
def stripExtSpecGo : List Str → Str → Str
  | [], s => s
  | e :: es, s =>
      if ('.' :: e).isSuffixOf s then s.take (s.length - (e.length + 1))
      else stripExtSpecGo es s

/-- The five-step reference definition of the Import Normalizer, written
from the words of the spec (section 4.1 / claim C3): strip surrounding
quotes; if the string contains `/`, keep only the final segment; if the
remainder contains `.` and does not start with `.`, keep only the
substring after the final `.`; strip one trailing enumerated extension
if present; lower-case the result. -/
def normalizeSpec (imp : Str) : Str :=
  let s1 := stripQuotesSpec imp
  let s2 := if s1.contains '/' then lastSegSpec '/' s1 else s1
  let s3 := if s2.contains '.' ∧ s2.head? ≠ some '.' then lastSegSpec '.' s2 else s2
  let s4 := stripExtSpecGo EXTS s3
  s4.map pyLower

/-- The resolver's basename-style key derivation (claim C4, from lines
63-64): strip only the final extension, lower-case. -/
def normalizeBasename (s : Str) : Str := lowerStr (stripLastExt s)

/-- Concrete input refuting claim C2 as stated: two records share the
path `"p"` with different languages, so `DependencyMap["p"]` mixes a
Python target and a Go target. -/
def c2CexFiles : List FileRecord :=
  [⟨['p'], r"python".data, [['x']], []⟩,
   ⟨['p'], r"go".data, [['y']], []⟩,
   ⟨r"x.py".data, r"python".data, [], []⟩,
   ⟨r"y.go".data, r"go".data, [], []⟩]

/-- Proof invariant for C2: every target recorded for a key is the
basename of an input file whose language group matches the group of any
input file owning that key as its path. -/
def GroupInv (files : List FileRecord) (m : DepsMap) : Prop :=
  ∀ k t, t ∈ alistGetD m k →
    ∀ f', f' ∈ files → f'.path = k →
      ∃ g, g ∈ files ∧ basename g.path = t ∧
        langGroup g.language = langGroup f'.language

/-- Concrete record for the C2 witness (spec scenario 1). -/
def c2WitnessFile : FileRecord := ⟨r"a.py".data, r"python".data, [['b']], []⟩

/-- Concrete well-formed input for the C2 witness (spec scenario 1). -/
def c2WitnessFiles : List FileRecord :=
  [c2WitnessFile, ⟨r"b.py".data, r"python".data, [], []⟩]

/-! ### Generic lemmas: folds and the dictionary embedding -/

theorem foldl_preserve {α : Type} {β : Type} (P : α → Prop) (step : α → β → α)
    (l : List β) (hstep : ∀ a b, b ∈ l → P a → P (step a b)) :
    ∀ acc, P acc → P (l.foldl step acc) := by
  induction l with
  | nil => intro acc h; simpa using h
  | cons x xs ih =>
      intro acc h
      simp only [List.foldl_cons]
      exact ih (fun a b hb ha => hstep a b (List.mem_cons_of_mem _ hb) ha) _
        (hstep acc x (List.mem_cons_self _ _) h)

theorem alistGetD_depsAdd (m : DepsMap) (k v k' : Str) :
    alistGetD (depsAdd m k v) k' =
      if k' = k then
        (if v ∈ alistGetD m k then alistGetD m k else alistGetD m k ++ [v])
      else alistGetD m k' := by
  induction m with
  | nil =>
      by_cases h : k' = k
      · subst h; simp [depsAdd, alistGetD]
      · simp [depsAdd, alistGetD, h, Ne.symm h]
  | cons p rest ih =>
      obtain ⟨a, vs⟩ := p
      by_cases hak : a = k
      · subst hak
        by_cases hk : k' = a
        · subst hk; simp [depsAdd, alistGetD]
        · simp [depsAdd, alistGetD, hk, Ne.symm hk]
      · by_cases hk : k' = k
        · subst hk
          have hak' : a ≠ k' := hak
          simp [depsAdd, alistGetD, hak, hak', ih]
        · by_cases hax : a = k'
          · subst hax
            simp [depsAdd, alistGetD, hak, hk]
          · simp [depsAdd, alistGetD, hak, hax, hk, ih]

theorem depsAdd_selfFree {m : DepsMap} {k v : Str}
    (hm : ∀ q, basename q ∉ alistGetD m q) (hvne : v ≠ basename k) :
    ∀ q, basename q ∉ alistGetD (depsAdd m k v) q := by
  intro q
  rw [alistGetD_depsAdd]
  by_cases hq : q = k
  · subst hq
    rw [if_pos rfl]
    by_cases hv : v ∈ alistGetD m q
    · rw [if_pos hv]; exact hm q
    · rw [if_neg hv]
      intro hmem
      rcases List.mem_append.mp hmem with h | h
      · exact hm q h
      · exact hvne (List.mem_singleton.mp h).symm
  · simpa [hq] using hm q

theorem processCandidate_selfFree {srcPath srcGroup : Str} {deps : DepsMap}
    {cand : Str × Str}
    (hm : ∀ q, basename q ∉ alistGetD deps q) :
    ∀ q, basename q ∉
      alistGetD (processCandidate srcPath srcGroup (basename srcPath) deps cand) q := by
  unfold processCandidate
  split
  · exact hm
  · split
    · exact hm
    · split
      · exact hm
      · rename_i hbn
        exact depsAdd_selfFree hm hbn

theorem processImport_selfFree {files : List FileRecord} {f : FileRecord}
    {deps : DepsMap} {imp : Str}
    (hm : ∀ q, basename q ∉ alistGetD deps q) :
    ∀ q, basename q ∉ alistGetD (processImport files f deps imp) q := by
  unfold processImport
  split
  · exact hm
  · dsimp only
    split
    · exact hm
    · exact foldl_preserve (fun m => ∀ q, basename q ∉ alistGetD m q) _ _
        (fun a b _ ha => processCandidate_selfFree ha) deps hm

/-- C1: for every input file list and every path, the basename of the
path never appears among the dependency targets recorded for that path
by `find_internal_deps` — a file is never its own dependency target,
even when other files share its basename. -/
theorem c1_no_self_dependency (files : List FileRecord) (p : Str) :
    basename p ∉ alistGetD (find_internal_deps files) p := by
  have h : ∀ q, basename q ∉ alistGetD (find_internal_deps files) q := by
    unfold find_internal_deps
    refine foldl_preserve (fun m => ∀ q, basename q ∉ alistGetD m q) _ _
      (fun a f _ ha => ?_) [] (by simp [alistGetD])
    exact foldl_preserve (fun m => ∀ q, basename q ∉ alistGetD m q) _ _
      (fun a' imp _ ha' => processImport_selfFree ha') a ha
  exact h p

/-! ### C2: dependency edges stay inside one language group -/

theorem eq_of_same_path {files : List FileRecord}
    (hdist : files.Pairwise (fun a b => a.path ≠ b.path))
    {a b : FileRecord} (ha : a ∈ files) (hb : b ∈ files)
    (hp : a.path = b.path) : a = b := by
  by_contra hne
  exact List.Pairwise.forall (R := fun a b => a.path ≠ b.path)
    (fun x y h => Ne.symm h) hdist ha hb hne hp

theorem nameToInfos_mem {files : List FileRecord} {norm : Str} {cand : Str × Str}
    (h : cand ∈ nameToInfos files norm) :
    ∃ g, g ∈ files ∧ g.path = cand.1 ∧ langGroup g.language = cand.2 := by
  unfold nameToInfos at h
  rcases List.mem_filterMap.mp h with ⟨g, hg, hsome⟩
  by_cases hk : fileKey g = norm
  · rw [if_pos hk] at hsome
    injection hsome with h'
    subst h'
    exact ⟨g, hg, rfl, rfl⟩
  · rw [if_neg hk] at hsome
    exact absurd hsome (by simp)

theorem depsAdd_nodup {m : DepsMap} {k v : Str}
    (hm : ∀ q, (alistGetD m q).Nodup) :
    ∀ q, (alistGetD (depsAdd m k v) q).Nodup := by
  intro q
  rw [alistGetD_depsAdd]
  by_cases hq : q = k
  · rw [if_pos hq]
    by_cases hv : v ∈ alistGetD m k
    · rw [if_pos hv]; exact hm k
    · rw [if_neg hv]
      refine List.Nodup.append (hm k) (List.nodup_singleton v) ?_
      intro a ha hb
      rw [List.mem_singleton] at hb
      subst hb
      exact hv ha
  · rw [if_neg hq]; exact hm q

theorem find_internal_deps_nodup (files : List FileRecord) :
    ∀ k, (alistGetD (find_internal_deps files) k).Nodup := by
  unfold find_internal_deps
  refine foldl_preserve (fun m => ∀ k, (alistGetD m k).Nodup) _ _ ?_ []
    (by intro k; simp [alistGetD])
  intro a f0 _ ha
  refine foldl_preserve (fun m => ∀ k, (alistGetD m k).Nodup) _ _ ?_ a ha
  intro a' imp _ ha'
  unfold processImport
  split
  · exact ha'
  · dsimp only
    split
    · exact ha'
    · refine foldl_preserve (fun m => ∀ k, (alistGetD m k).Nodup) _ _ ?_ a' ha'
      intro m cand _ hm
      unfold processCandidate
      split
      · exact hm
      · split
        · exact hm
        · split
          · exact hm
          · exact depsAdd_nodup hm

theorem find_internal_deps_group (files : List FileRecord)
    (hdist : files.Pairwise (fun a b => a.path ≠ b.path)) :
    GroupInv files (find_internal_deps files) := by
  unfold find_internal_deps
  refine foldl_preserve (GroupInv files) _ _ ?_ []
    (by intro k t ht; simp [alistGetD] at ht)
  intro a f0 hf0 ha
  refine foldl_preserve (GroupInv files) _ _ ?_ a ha
  intro a' imp _ ha'
  unfold processImport
  split
  · exact ha'
  · dsimp only
    split
    · exact ha'
    · refine foldl_preserve (GroupInv files) _ _ ?_ a' ha'
      intro m cand hcand hm
      unfold processCandidate
      split
      · exact hm
      · split
        · exact hm
        · split
          · exact hm
          · rename_i hnotself hnotdiff hnotsame
            intro k t hmem f' hf' hp
            rw [alistGetD_depsAdd] at hmem
            by_cases hk : k = f0.path
            · rw [if_pos hk] at hmem
              by_cases hv : basename cand.1 ∈ alistGetD m f0.path
              · rw [if_pos hv] at hmem
                exact hm k t (by rw [hk]; exact hmem) f' hf' hp
              · rw [if_neg hv] at hmem
                rcases List.mem_append.mp hmem with hmm | hmm
                · exact hm k t (by rw [hk]; exact hmm) f' hf' hp
                · have ht : t = basename cand.1 := List.mem_singleton.mp hmm
                  have hff : f' = f0 := eq_of_same_path hdist hf' hf0 (by rw [hp, hk])
                  rcases nameToInfos_mem hcand with ⟨g, hg, hgp, hgl⟩
                  refine ⟨g, hg, by rw [ht, hgp], ?_⟩
                  have h2' : langGroup f0.language = cand.2 := not_ne_iff.mp hnotdiff
                  rw [hgl, ← h2', hff]
            · rw [if_neg hk] at hmem
              exact hm k t hmem f' hf' hp

/-- C2 (amended): on input lists whose records carry pairwise-distinct
paths, every basename recorded for `f.path` by `find_internal_deps` is
the basename of some input file whose language group (under
`LANG_GROUPS`, unmapped languages mapping to themselves) equals the
language group of `f`, and each target basename occurs at most once.
The distinct-path hypothesis is forced by `c2_counterexample`: two
records sharing one path with different languages mix their groups in
the shared `DependencyMap` entry. -/
theorem c2_same_group_and_nodup (files : List FileRecord)
    (hdist : files.Pairwise (fun a b => a.path ≠ b.path))
    (f : FileRecord) (hf : f ∈ files) :
    (∀ t ∈ alistGetD (find_internal_deps files) f.path,
        ∃ g, g ∈ files ∧ basename g.path = t ∧
          langGroup g.language = langGroup f.language)
    ∧ (alistGetD (find_internal_deps files) f.path).Nodup :=
  ⟨fun t ht => find_internal_deps_group files hdist f.path t ht f hf rfl,
   find_internal_deps_nodup files f.path⟩

/-- C2 counterexample: the claim as stated (for every input file list)
fails on `c2CexFiles`, where the records `("p", python)` and
`("p", go)` share a path; `DependencyMap["p"] = ["x.py", "y.go"]`, and
`y.go`'s only owner is in group `go` while the first record's group is
`python`. -/
theorem c2_counterexample :
    ¬ (∀ f, f ∈ c2CexFiles →
        ∀ t ∈ alistGetD (find_internal_deps c2CexFiles) f.path,
          ∃ g, g ∈ c2CexFiles ∧ basename g.path = t ∧
            langGroup g.language = langGroup f.language) := by
  decide

theorem c2_witness :
    (c2WitnessFiles.Pairwise (fun a b => a.path ≠ b.path)
      ∧ c2WitnessFile ∈ c2WitnessFiles)
    ∧ ((∀ t ∈ alistGetD (find_internal_deps c2WitnessFiles) c2WitnessFile.path,
          ∃ g, g ∈ c2WitnessFiles ∧ basename g.path = t ∧
            langGroup g.language = langGroup c2WitnessFile.language)
        ∧ (alistGetD (find_internal_deps c2WitnessFiles) c2WitnessFile.path).Nodup) :=
  ⟨⟨by decide, by decide⟩,
   c2_same_group_and_nodup c2WitnessFiles (by decide) c2WitnessFile (by decide)⟩

/-! ### Character-level lemmas about the ASCII lower-casing -/

theorem lookup_mem {ps : List (Char × Char)} {c v : Char}
    (h : List.lookup c ps = some v) : (c, v) ∈ ps := by
  induction ps with
  | nil => simp [List.lookup] at h
  | cons p rest ih =>
      obtain ⟨k, w⟩ := p
      by_cases hbe : c = k
      · subst hbe
        have h' : some w = some v := by simpa [List.lookup] using h
        injection h' with h''
        subst h''
        exact List.mem_cons_self _ _
      · have hb : (c == k) = false := by simp [hbe]
        have h' : List.lookup c rest = some v := by
          simpa [List.lookup, hb] using h
        exact List.mem_cons_of_mem _ (ih h')

theorem lowerPairs_facts : ∀ p ∈ lowerPairs,
    (p.1 ≠ '.' ∧ p.1 ≠ '/' ∧ p.1 ≠ dquoteChar ∧ p.1 ≠ squoteChar) ∧
    (p.2 ≠ '.' ∧ p.2 ≠ '/' ∧ p.2 ≠ dquoteChar ∧ p.2 ≠ squoteChar) ∧
    List.lookup p.2 lowerPairs = none := by decide

theorem lookup_special_none :
    List.lookup '.' lowerPairs = none ∧ List.lookup '/' lowerPairs = none ∧
    List.lookup dquoteChar lowerPairs = none ∧
    List.lookup squoteChar lowerPairs = none := by decide

theorem pyLower_fix {d : Char} (hnone : List.lookup d lowerPairs = none) :
    pyLower d = d := by
  unfold pyLower; rw [hnone]; rfl

theorem pyLower_eq_iff {d : Char} (hnone : List.lookup d lowerPairs = none)
    (hval : ∀ p ∈ lowerPairs, p.2 ≠ d) (c : Char) :
    pyLower c = d ↔ c = d := by
  constructor
  · intro h
    cases hl : List.lookup c lowerPairs with
    | none => unfold pyLower at h; rw [hl] at h; simpa using h
    | some v =>
        unfold pyLower at h; rw [hl] at h
        simp only [Option.getD_some] at h
        exact absurd h (hval _ (lookup_mem hl))
  · intro h; subst h; exact pyLower_fix hnone

theorem pyLower_lookup_none (c : Char) :
    List.lookup (pyLower c) lowerPairs = none := by
  cases hl : List.lookup c lowerPairs with
  | none => unfold pyLower; rw [hl]; simpa using hl
  | some v =>
      have hf := (lowerPairs_facts _ (lookup_mem hl)).2.2
      unfold pyLower; rw [hl]; simpa using hf

theorem pyLower_idem (c : Char) : pyLower (pyLower c) = pyLower c := by
  have h := pyLower_lookup_none c
  show (List.lookup (pyLower c) lowerPairs).getD (pyLower c) = pyLower c
  rw [h]; rfl

theorem lowerStr_idem (s : Str) : lowerStr (lowerStr s) = lowerStr s := by
  unfold lowerStr
  rw [List.map_map, show pyLower ∘ pyLower = pyLower from funext pyLower_idem]

theorem mem_lowerStr {d : Char} (hnone : List.lookup d lowerPairs = none)
    (hval : ∀ p ∈ lowerPairs, p.2 ≠ d) (s : Str) :
    d ∈ lowerStr s ↔ d ∈ s := by
  unfold lowerStr
  rw [List.mem_map]
  constructor
  · rintro ⟨x, hx, hpx⟩
    rwa [(pyLower_eq_iff hnone hval x).mp hpx] at hx
  · intro hd; exact ⟨d, hd, pyLower_fix hnone⟩

theorem quotePred_lower (c : Char) :
    quoteChars.contains (pyLower c) = quoteChars.contains c := by
  by_cases hd : c = dquoteChar
  · subst hd; rw [pyLower_fix lookup_special_none.2.2.1]
  · by_cases hs : c = squoteChar
    · subst hs; rw [pyLower_fix lookup_special_none.2.2.2]
    · have h1 : pyLower c ≠ dquoteChar := fun hh =>
        hd ((pyLower_eq_iff lookup_special_none.2.2.1
          (fun p hp => (lowerPairs_facts p hp).2.1.2.2.1) c).mp hh)
      have h2 : pyLower c ≠ squoteChar := fun hh =>
        hs ((pyLower_eq_iff lookup_special_none.2.2.2
          (fun p hp => (lowerPairs_facts p hp).2.1.2.2.2) c).mp hh)
      simp [quoteChars, List.contains, h1, h2, hd, hs]

theorem pyStrip_lower (s : Str) :
    pyStrip quoteChars (lowerStr s) = lowerStr (pyStrip quoteChars s) := by
  have hP : ((fun c => quoteChars.contains c) ∘ pyLower)
      = (fun c => quoteChars.contains c) := by
    funext c
    exact quotePred_lower c
  unfold pyStrip lowerStr
  rw [List.dropWhile_map, hP, ← List.map_reverse, List.dropWhile_map, hP,
    ← List.map_reverse]

theorem afterLast_lower {d : Char} (hnone : List.lookup d lowerPairs = none)
    (hval : ∀ p ∈ lowerPairs, p.2 ≠ d) (s : Str) :
    afterLast d (lowerStr s) = lowerStr (afterLast d s) := by
  have hQ : ((fun x => decide (x ≠ d)) ∘ pyLower)
      = (fun x : Char => decide (x ≠ d)) := by
    funext x
    simp only [Function.comp_apply, decide_eq_decide]
    exact not_congr (pyLower_eq_iff hnone hval x)
  unfold afterLast lowerStr
  rw [← List.map_reverse, List.takeWhile_map, hQ, ← List.map_reverse]

theorem pyStrip_subset {cs s : Str} {a : Char} (h : a ∈ pyStrip cs s) :
    a ∈ s := by
  unfold pyStrip at h
  rw [List.mem_reverse] at h
  have h2 := (List.dropWhile_sublist _).subset h
  rw [List.mem_reverse] at h2
  exact (List.dropWhile_sublist _).subset h2

theorem afterLast_subset {c a : Char} {s : Str} (h : a ∈ afterLast c s) :
    a ∈ s := by
  unfold afterLast at h
  rw [List.mem_reverse] at h
  have h2 := (List.takeWhile_sublist _).subset h
  rwa [List.mem_reverse] at h2

theorem stripLastExt_no_dot {s : Str} (h : '.' ∉ s) : stripLastExt s = s := by
  unfold stripLastExt
  have ht : s.reverse.takeWhile (fun x => x ≠ '.') = s.reverse := by
    rw [List.takeWhile_eq_self_iff]
    intro x hx
    rw [List.mem_reverse] at hx
    simp only [ne_eq, decide_eq_true_eq]
    exact fun hh => h (hh ▸ hx)
  dsimp only
  rw [ht]
  simp

theorem stripKnownExt_no_dot {s : Str} (h : '.' ∉ s) : stripKnownExt s = s := by
  unfold stripKnownExt
  have hf : EXTS.find? (fun e => ('.' :: e).isSuffixOf s) = none := by
    rw [List.find?_eq_none]
    intro e _ hsuf
    rw [List.isSuffixOf_iff_suffix] at hsuf
    exact h (hsuf.mem (by simp))
  rw [hf]

/-! ### C4: the spec's double-normalization identity -/

/-- C4 counterexample: at the import string `a.py`, normalizing the
basename-style key gives `a` (whose normalization is `a`) while the
Import Normalizer alone gives `py` — step 3 collapses to the substring
after the final dot before the extension-stripping step can act. -/
theorem c4_counterexample :
    normalize_import (normalizeBasename (r"a.py".data)) (r"python".data)
      ≠ normalize_import (r"a.py".data) (r"python".data) := by
  decide

/-- C4 (amended): the identity
`normalize(normalize_basename(i)) = normalize(i)` holds for every import
string `i` that contains no `.` character (the counterexample
`c4_counterexample` shows a single dot already breaks it). -/
theorem c4_amended_no_dot (i lang : Str) (h : '.' ∉ i) :
    normalize_import (normalizeBasename i) lang = normalize_import i lang := by
  have hdnone := lookup_special_none.1
  have hdval : ∀ p ∈ lowerPairs, p.2 ≠ '.' :=
    fun p hp => (lowerPairs_facts p hp).2.1.1
  have hsnone := lookup_special_none.2.1
  have hsval : ∀ p ∈ lowerPairs, p.2 ≠ '/' :=
    fun p hp => (lowerPairs_facts p hp).2.1.2.1
  have hnb : normalizeBasename i = lowerStr i := by
    unfold normalizeBasename
    rw [stripLastExt_no_dot h]
  rw [hnb]
  unfold normalize_import
  dsimp only
  rw [pyStrip_lower]
  have h1 : '.' ∉ pyStrip quoteChars i := fun hm => h (pyStrip_subset hm)
  generalize hg : pyStrip quoteChars i = s1 at h1
  have hc1 : ((lowerStr s1).contains '/') = (s1.contains '/') := by
    simp only [List.contains, List.elem_eq_mem]
    exact decide_eq_decide.mpr (mem_lowerStr hsnone hsval s1)
  rw [hc1]
  by_cases hsl : s1.contains '/'
  · rw [if_pos hsl, if_pos hsl, afterLast_lower hsnone hsval]
    have h2 : '.' ∉ afterLast '/' s1 := fun hm => h1 (afterLast_subset hm)
    generalize afterLast '/' s1 = s2 at h2
    have hcl : ¬ ((lowerStr s2).contains '.' ∧ (lowerStr s2).head? ≠ some '.') := by
      intro hc
      have := hc.1
      rw [List.contains, List.elem_eq_mem, decide_eq_true_eq,
        mem_lowerStr hdnone hdval] at this
      exact h2 this
    have hcr : ¬ (s2.contains '.' ∧ s2.head? ≠ some '.') := by
      intro hc
      have := hc.1
      rw [List.contains, List.elem_eq_mem, decide_eq_true_eq] at this
      exact h2 this
    rw [if_neg hcl, if_neg hcr,
      stripKnownExt_no_dot (fun hm => h2 ((mem_lowerStr hdnone hdval s2).mp hm)),
      stripKnownExt_no_dot h2, lowerStr_idem]
  · rw [if_neg hsl, if_neg hsl]
    have hcl : ¬ ((lowerStr s1).contains '.' ∧ (lowerStr s1).head? ≠ some '.') := by
      intro hc
      have := hc.1
      rw [List.contains, List.elem_eq_mem, decide_eq_true_eq,
        mem_lowerStr hdnone hdval] at this
      exact h1 this
    have hcr : ¬ (s1.contains '.' ∧ s1.head? ≠ some '.') := by
      intro hc
      have := hc.1
      rw [List.contains, List.elem_eq_mem, decide_eq_true_eq] at this
      exact h1 this
    rw [if_neg hcl, if_neg hcr,
      stripKnownExt_no_dot (fun hm => h1 ((mem_lowerStr hdnone hdval s1).mp hm)),
      stripKnownExt_no_dot h1, lowerStr_idem]

theorem c4_witness :
    ('.' ∉ (r"Lib/Utils".data : Str))
    ∧ normalize_import (normalizeBasename (r"Lib/Utils".data)) (r"python".data)
        = normalize_import (r"Lib/Utils".data) (r"python".data) :=
  ⟨by decide, c4_amended_no_dot (r"Lib/Utils".data) (r"python".data) (by decide)⟩

/-! ### C3: the Import Normalizer equals the spec's five-step definition -/

theorem pySplit_ne_nil (c : Char) (s : Str) : pySplit c s ≠ [] := by
  induction s with
  | nil => simp [pySplit]
  | cons x xs ih =>
      by_cases hx : x = c
      · simp [pySplit, hx]
      · cases h : pySplit c xs with
        | nil => exact absurd h ih
        | cons a t => simp [pySplit, hx, h]

theorem pySplit_no_sep {c : Char} {s : Str} (h : c ∉ s) : pySplit c s = [s] := by
  induction s with
  | nil => rfl
  | cons x xs ih =>
      have hx : ¬ x = c := fun hh => h (hh ▸ List.mem_cons_self x xs)
      have hxs : c ∉ xs := fun hh => h (List.mem_cons_of_mem _ hh)
      simp [pySplit, hx, ih hxs]

theorem pySplit_len_two {c : Char} {s : Str} (h : c ∈ s) :
    2 ≤ (pySplit c s).length := by
  induction s with
  | nil => simp at h
  | cons x xs ih =>
      by_cases hx : x = c
      · rw [show pySplit c (x :: xs) = [] :: pySplit c xs from by
            simp [pySplit, hx]]
        have h1 : 1 ≤ (pySplit c xs).length :=
          List.length_pos.mpr (pySplit_ne_nil c xs)
        simp only [List.length_cons]
        omega
      · have hxs : c ∈ xs := by
          rcases List.mem_cons.mp h with h' | h'
          · exact absurd h'.symm hx
          · exact h'
        have h2 := ih hxs
        cases hsp : pySplit c xs with
        | nil => exact absurd hsp (pySplit_ne_nil c xs)
        | cons a t =>
            rw [hsp] at h2
            simp only [pySplit, hx, if_neg hx, hsp, List.length_cons]
            simpa using h2

theorem getLastD_indep {t : List Str} (h : t ≠ []) (a b : Str) :
    t.getLastD a = t.getLastD b := by
  cases t with
  | nil => exact absurd rfl h
  | cons y t' => rw [List.getLastD_cons, List.getLastD_cons]

theorem lastSegSpec_eq (c : Char) (s : Str) : lastSegSpec c s = afterLast c s := by
  unfold lastSegSpec
  induction s with
  | nil => rfl
  | cons x xs ih =>
      by_cases hmem : c ∈ xs
      · have hlen2 := pySplit_len_two hmem
        have haft : afterLast c (x :: xs) = afterLast c xs := by
          unfold afterLast
          rw [show (x :: xs).reverse = xs.reverse ++ [x] from by simp,
            List.takeWhile_append]
          have hne : ¬ ((xs.reverse.takeWhile (fun y => decide (y ≠ c))).length
              = xs.reverse.length) := by
            intro hlen
            have heq := (List.takeWhile_prefix _).eq_of_length hlen
            have hc := (List.takeWhile_eq_self_iff.mp heq) c (by simpa using hmem)
            simp at hc
          rw [if_neg hne]
        rw [haft, ← ih]
        by_cases hx : x = c
        · rw [show pySplit c (x :: xs) = [] :: pySplit c xs from by
              simp [pySplit, hx]]
          cases hsp : pySplit c xs with
          | nil => exact absurd hsp (pySplit_ne_nil c xs)
          | cons a t => rfl
        · cases hsp : pySplit c xs with
          | nil => exact absurd hsp (pySplit_ne_nil c xs)
          | cons a t =>
              have ht : t ≠ [] := by
                rw [hsp] at hlen2
                intro hh
                subst hh
                simp at hlen2
              rw [show pySplit c (x :: xs) = (x :: a) :: t from by
                  simp [pySplit, hx, hsp]]
              rw [List.getLastD_cons, List.getLastD_cons]
              exact getLastD_indep ht _ _
      · by_cases hx : x = c
        · subst hx
          rw [show pySplit x (x :: xs) = [] :: pySplit x xs from by
              simp [pySplit]]
          rw [pySplit_no_sep hmem, List.getLastD_cons]
          unfold afterLast
          rw [show (x :: xs).reverse = xs.reverse ++ [x] from by simp,
            List.takeWhile_append_of_pos (by
              intro a ha
              rw [List.mem_reverse] at ha
              simp only [ne_eq, decide_eq_true_eq]
              exact fun hh => hmem (hh ▸ ha))]
          simp
        · have hall : c ∉ x :: xs := by
            intro hh
            rcases List.mem_cons.mp hh with h' | h'
            · exact hx h'.symm
            · exact hmem h'
          rw [pySplit_no_sep hall]
          unfold afterLast
          rw [List.takeWhile_eq_self_iff.mpr (by
            intro y hy
            rw [List.mem_reverse] at hy
            simp only [ne_eq, decide_eq_true_eq]
            exact fun hh => hall (hh ▸ hy))]
          simp

theorem stripExtSpecGo_eq (s : Str) : stripExtSpecGo EXTS s = stripKnownExt s := by
  unfold stripKnownExt
  generalize EXTS = es
  induction es with
  | nil => rfl
  | cons e rest ih =>
      by_cases hs : ('.' :: e).isSuffixOf s
      · rw [stripExtSpecGo, if_pos hs,
          @List.find?_cons_of_pos _ (fun e => ('.' :: e).isSuffixOf s) e rest hs]
      · rw [stripExtSpecGo, if_neg hs,
          @List.find?_cons_of_neg _ (fun e => ('.' :: e).isSuffixOf s) e rest hs, ih]

theorem stripQuotesSpec_eq (s : Str) : stripQuotesSpec s = pyStrip quoteChars s := by
  have hp : isQuoteChar = (fun c => quoteChars.contains c) := by
    funext c
    rw [Bool.eq_iff_iff]
    simp [isQuoteChar, quoteChars, List.contains, List.elem_eq_mem]
  unfold stripQuotesSpec pyStrip
  rw [hp]

/-- C3: for every raw import string (and any source language, which the
normalizer ignores), `normalize_import` coincides with the spec's
five-step reference definition `normalizeSpec`; both are total Lean
functions, so the normalizer never fails and always returns a (possibly
empty) string. -/
theorem c3_normalizer_matches_spec (imp lang : Str) :
    normalize_import imp lang = normalizeSpec imp := by
  unfold normalize_import normalizeSpec lowerStr
  dsimp only
  rw [stripQuotesSpec_eq, lastSegSpec_eq, lastSegSpec_eq, stripExtSpecGo_eq]

/-! ### C5: empty input short-circuit -/

/-- C5: on an input whose `files` sequence is empty, `render` produces
exactly one output line — the informational notice, carrying the
renderer's two-space indent — and nothing else: no header panel, no
system section, no hub line and no summary line. -/
theorem c5_empty_input (extDeps : List (Str × List Str)) (projectName : Str) :
    render ⟨[], extDeps⟩ projectName = [r"  No source files found.".data] := rfl

/-! ### C6: the function lines of a box -/

/-- C6: the box content of `create_box_lines` is the title and separator
followed by one `ƒ <name>()` line for each of the first `min 6 n`
declared functions in declaration order, then — exactly when the
function count `n` exceeds 6 — a single `+<n-6> more` summary line
(carrying the box's two-space indent), then the `uses:` section. -/
theorem c6_box_function_lines (path : Str) (functions external : List Str)
    (width : Nat) :
    create_box_lines path functions external width =
      truncate_with_ellipsis (basename path) (width - 4)
        :: List.replicate (width - 4) '─'
        :: ((functions.take 6).map (fun fn => r"ƒ ".data ++ fn ++ r"()".data)
            ++ (if 6 < functions.length
                then [r"  +".data ++ natStr (functions.length - 6) ++ r" more".data]
                else [])
            ++ usesSection external (width - 4))
    ∧ ((functions.take 6).map (fun fn => r"ƒ ".data ++ fn ++ r"()".data)).length
        = min 6 functions.length := by
  constructor
  · rfl
  · rw [List.length_map, List.length_take]

/-! ### C7: branching render for more than four targets -/

/-- C7: a file with more than 4 dependency targets renders as a
branching tree — the extension-stripped first target on the source's
`──┬──▶` arrow line, each target except the first and last on its own
indented `├──▶` line in order, and the last target on an indented
`└──▶` line; the middle-line count is the target count minus 2, so 5
targets give exactly 3 `├──▶` lines. -/
theorem c7_branching_tree (files : List FileRecord) (deps : DepsMap)
    (nameNoExt : Str) (targets : List Str) (h : 4 < targets.length) :
    renderChainLines files deps nameNoExt targets =
      (r"  ".data ++ nameNoExt ++ r" ──┬──▶ ".data
          ++ stripLastExt (targets.headD []))
        :: ((targets.drop 1).dropLast.map (fun t =>
              r"  ".data ++ List.replicate nameNoExt.length ' '
                ++ r"   ├──▶ ".data ++ stripLastExt t))
        ++ [r"  ".data ++ List.replicate nameNoExt.length ' '
              ++ r"   └──▶ ".data ++ stripLastExt (targets.getLastD [])]
    ∧ ((targets.drop 1).dropLast).length = targets.length - 2 := by
  have h1 : ¬ targets.length = 1 := by omega
  have h4 : ¬ targets.length ≤ 4 := by omega
  have hhead : (targets.map stripLastExt).headD []
      = stripLastExt (targets.headD []) := by
    cases targets with
    | nil => rfl
    | cons a ts => rfl
  have hlast : (targets.map stripLastExt).getLastD []
      = stripLastExt (targets.getLastD []) := by
    rw [List.getLastD_eq_getLast?, List.getLastD_eq_getLast?, List.getLast?_map]
    cases targets.getLast? with
    | none => rfl
    | some a => rfl
  constructor
  · unfold renderChainLines
    rw [if_neg h1, if_neg h4]
    dsimp only
    rw [hhead, hlast, ← List.map_drop, ← List.map_dropLast, List.map_map]
    rfl
  · rw [List.length_dropLast, List.length_drop]
    omega

theorem c7_witness :
    4 < ([r"a.py".data, r"b.py".data, r"c.py".data, r"d.py".data,
          r"e.py".data] : List Str).length
    ∧ (renderChainLines [] [] ['m']
          [r"a.py".data, r"b.py".data, r"c.py".data, r"d.py".data,
           r"e.py".data] =
        (r"  ".data ++ ['m'] ++ r" ──┬──▶ ".data
            ++ stripLastExt (([r"a.py".data, r"b.py".data, r"c.py".data,
                r"d.py".data, r"e.py".data] : List Str).headD []))
          :: ((([r"a.py".data, r"b.py".data, r"c.py".data, r"d.py".data,
                r"e.py".data] : List Str).drop 1).dropLast.map (fun t =>
                r"  ".data ++ List.replicate (['m'] : Str).length ' '
                  ++ r"   ├──▶ ".data ++ stripLastExt t))
          ++ [r"  ".data ++ List.replicate (['m'] : Str).length ' '
                ++ r"   └──▶ ".data
                ++ stripLastExt (([r"a.py".data, r"b.py".data, r"c.py".data,
                    r"d.py".data, r"e.py".data] : List Str).getLastD [])]
        ∧ ((([r"a.py".data, r"b.py".data, r"c.py".data, r"d.py".data,
              r"e.py".data] : List Str).drop 1).dropLast).length
            = ([r"a.py".data, r"b.py".data, r"c.py".data, r"d.py".data,
                r"e.py".data] : List Str).length - 2) :=
  ⟨by decide,
   c7_branching_tree [] [] ['m']
     [r"a.py".data, r"b.py".data, r"c.py".data, r"d.py".data, r"e.py".data]
     (by decide)⟩

/-! ### C8: shape of the hub list -/

theorem hubLe_trans : ∀ a b c : Str × Nat, hubLe a b → hubLe b c → hubLe a c := by
  intro a b c hab hbc
  simp only [hubLe, decide_eq_true_eq] at *
  omega

theorem hubLe_total : ∀ a b : Str × Nat, hubLe a b || hubLe b a := by
  intro a b
  simp only [hubLe]
  by_cases h : b.2 ≤ a.2
  · simp [h]
  · simp [h]
    omega

theorem hubsFrom_spec (counts : List (Str × Nat)) :
    (hubsFrom counts).length ≤ 6
    ∧ (∀ p ∈ hubsFrom counts, 2 ≤ p.2)
    ∧ (hubsFrom counts).Pairwise (fun a b => b.2 ≤ a.2)
    ∧ (hubsFrom counts = [] → hubSection counts = []) := by
  refine ⟨?_, ?_, ?_, ?_⟩
  · calc (hubsFrom counts).length
        ≤ ((counts.mergeSort hubLe).take 6).length :=
          List.length_filter_le _ _
      _ ≤ 6 := by rw [List.length_take]; exact Nat.min_le_left _ _
  · intro p hp
    have h := List.of_mem_filter hp
    simpa using h
  · have hs : (counts.mergeSort hubLe).Pairwise (fun a b => hubLe a b) :=
      List.sorted_mergeSort hubLe_trans hubLe_total counts
    have hs' : (counts.mergeSort hubLe).Pairwise (fun a b => b.2 ≤ a.2) :=
      hs.imp (fun h => by simpa [hubLe] using h)
    exact hs'.sublist ((List.filter_sublist _).trans (List.take_sublist _ _))
  · intro h
    unfold hubSection
    by_cases hc : counts.isEmpty
    · rw [if_pos hc]
    · rw [if_neg hc]
      dsimp only
      rw [h]
      rfl

/-- C8: for every input file list, the hub list computed by the renderer
(`hubsFrom` over the incoming-dependency counts of the dependency map)
has length at most 6, every entry's count is at least 2, the counts are
in non-increasing order, and the HUBS block (rule plus `HUBS:` line) is
printed only when at least one entry qualifies. -/
theorem c8_hub_list (files : List FileRecord) :
    (hubsFrom (depCounts (find_internal_deps files))).length ≤ 6
    ∧ (∀ p ∈ hubsFrom (depCounts (find_internal_deps files)), 2 ≤ p.2)
    ∧ (hubsFrom (depCounts (find_internal_deps files))).Pairwise
        (fun a b => b.2 ≤ a.2)
    ∧ (hubsFrom (depCounts (find_internal_deps files)) = []
        → hubSection (depCounts (find_internal_deps files)) = []) :=
  hubsFrom_spec (depCounts (find_internal_deps files))

/-! ### C10: the unescaped dot erases extension-less hub names -/

/-- C10: for a hub entry whose target basename contains no `.` and has
length at least 2, the name shortened by the pattern `.[^.]+$` (with its
unescaped leading dot) is empty, so the entry renders as ` (count←)`
with no name before the parenthesis. -/
theorem c10_hub_name_erased (name : Str) (count : Nat)
    (h1 : '.' ∉ name) (h2 : 2 ≤ name.length) :
    hubEntryStr (name, count) = r" (".data ++ natStr count ++ r"←)".data := by
  have hc : ¬ (name.contains '.' = true) := by
    rw [List.contains, List.elem_eq_mem]
    simp [h1]
  unfold hubEntryStr
  dsimp only
  rw [show hubShorten name = [] from by
    unfold hubShorten; rw [if_neg hc, if_pos h2]]
  rfl

theorem c10_witness :
    ('.' ∉ (r"utils".data : Str)) ∧ 2 ≤ (r"utils".data : Str).length
    ∧ hubEntryStr (r"utils".data, 3) = r" (".data ++ natStr 3 ++ r"←)".data :=
  ⟨by decide, by decide,
   c10_hub_name_erased (r"utils".data) 3 (by decide) (by decide)⟩

end Depgraph
